import Mathlib

/-!
Shallow embedding of the text-normalization, commission-parsing, search and
aggregation core of the tr-marketplace-commission-kit repository
(src/_legacy/utils.py, src/_legacy/find_commision_rate.py, src/app.py),
together with theorems settling the frozen claims about it.

Strings are modelled as lists of Unicode characters (Python `str` values are
sequences of code points).  Python's `str.lower` is modelled exactly on the
characters this code base manipulates: ASCII letters, the six
uppercase-Turkish letters, and the capital dotted I (which Python lowers to
'i' followed by the combining dot above, U+0307); all other characters are
left unchanged.  Python/pandas whitespace is modelled by the six ASCII
whitespace characters.  Commission numbers are modelled as exact rationals
(the floating point values appearing in the claims are exactly
representable).
-/

abbrev Str := List Char

/-- Model of the Python whitespace class used by str.strip and re \s for the
characters relevant here (ASCII whitespace). -/
def isPyWS (c : Char) : Bool :=
  c = ' ' || c = '\t' || c = '\n' || c = '\x0d' || c = '\x0b' || c = '\x0c'

/-- Python str.strip(): drop whitespace from both ends. -/
def pyStrip (l : Str) : Str :=
  ((l.dropWhile isPyWS).reverse.dropWhile isPyWS).reverse

/-- The combining dot above (U+0307) that Python's str.lower produces when
lowercasing the Turkish capital dotted I. -/
def combDot : Char := '̇'

/-- Uppercase-to-lowercase table of the characters this code base
lowercases (all ASCII uppercase letters and the uppercase Turkish letters
other than the capital dotted I, which is special-cased). -/
def upperLower : List (Char × Char) :=
  [('A','a'), ('B','b'), ('C','c'), ('D','d'), ('E','e'), ('F','f'),
   ('G','g'), ('H','h'), ('I','i'), ('J','j'), ('K','k'), ('L','l'),
   ('M','m'), ('N','n'), ('O','o'), ('P','p'), ('Q','q'), ('R','r'),
   ('S','s'), ('T','t'), ('U','u'), ('V','v'), ('W','w'), ('X','x'),
   ('Y','y'), ('Z','z'),
   ('Ğ','ğ'), ('Ü','ü'), ('Ş','ş'), ('Ö','ö'), ('Ç','ç')]

/-- Model of Python str.lower on a single character: the capital dotted I
lowers to 'i' plus a combining dot above; the other uppercase Turkish
letters and ASCII uppercase letters lower to their lowercase forms; every
other character (already-lowercase letters, digits, punctuation,
whitespace) is unchanged. -/
def pyLowerChar (c : Char) : List Char :=
  if c = 'İ' then ['i', combDot]
  else
    match upperLower.find? (fun p => p.1 = c) with
    | some p => [p.2]
    | none => [c]

/-- Model of Python str.lower on a string. -/
def pyLower (l : Str) : Str :=
  (l.map pyLowerChar).flatten

/-- The fixed 12-character Turkish substitution table of
utils.normalize_text: str.maketrans("ığüşöçİĞÜŞÖÇ", "igusocIGUSOC"). -/
def trTable : List (Char × Char) :=
  [('ı','i'), ('ğ','g'), ('ü','u'), ('ş','s'), ('ö','o'), ('ç','c'),
   ('İ','I'), ('Ğ','G'), ('Ü','U'), ('Ş','S'), ('Ö','O'), ('Ç','C')]

/-- Application of the substitution table to one character (str.translate
leaves characters outside the table unchanged). -/
def trChar (c : Char) : Char :=
  ((trTable.find? (fun p => p.1 = c)).map Prod.snd).getD c

/-- Replace a whitespace character by a plain space (first half of
re.sub(r"\s+", " ", text)). -/
def wsToSpace (c : Char) : Char :=
  if isPyWS c then ' ' else c

/-- Collapse runs of adjacent spaces to a single space (second half of
re.sub(r"\s+", " ", text), after whitespace characters were mapped to ' '). -/
def squeeze : Str → Str
  | [] => []
  | [a] => [a]
  | a :: b :: r =>
    if a = ' ' ∧ b = ' ' then squeeze (b :: r) else a :: squeeze (b :: r)

/-- Model of re.sub(r"\s+", " ", text): every maximal run of whitespace
becomes a single space. -/
def collapseWS (l : Str) : Str :=
  squeeze (l.map wsToSpace)

/-- Embedding of utils.normalize_text on string input: strip, lower,
null-like sentinel check, Turkish substitution table, whitespace collapse.
(None/NaN inputs, which the Python function maps to "", are handled by the
caller side and are not part of the string-to-string core.) -/
def normalizeText (x : Str) : Str :=
  let t := pyLower (pyStrip x)
  if t = "nan".data ∨ t = "none".data ∨ t = [] then []
  else collapseWS (t.map trChar)

/-- Character class of the numeric-run regex [\d.,]+ in
utils.parse_commission_to_float. -/
def isNumChar (c : Char) : Bool :=
  c.isDigit || c = '.' || c = ','

/-- First (leftmost, maximal) run of digit/separator characters:
re.findall(r"[\d\.,]+", value_str)[0], or none when no run exists. -/
def firstNumRun (s : Str) : Option Str :=
  let r := (s.dropWhile (fun c => !isNumChar c)).takeWhile isNumChar
  if r = [] then none else some r

/-- Separator disambiguation of utils.parse_commission_to_float: with both
',' and '.' present, '.' is removed (thousands separator) and ',' becomes
the decimal point; with only ',' present, ',' becomes the decimal point. -/
def sepFix (raw : Str) : Str :=
  if raw.contains ',' ∧ raw.contains '.' then
    (raw.filter (fun c => c ≠ '.')).map (fun c => if c = ',' then '.' else c)
  else if raw.contains ',' then
    raw.map (fun c => if c = ',' then '.' else c)
  else raw

/-- Numeric value of a digit string. -/
def digitsVal (l : Str) : Nat :=
  l.foldl (fun a c => 10 * a + (c.toNat - 48)) 0

/-- Model of Python float() restricted to the strings reachable here
(characters are digits and '.'): succeeds when there is at most one '.'
and at least one digit, as float does on such strings ("5." and ".5" are
accepted, "." and "1.2.3" are rejected). -/
def floatOfRun (l : Str) : Option ℚ :=
  let ip := l.takeWhile (fun c => c ≠ '.')
  let rest := l.drop ip.length
  if !ip.all Char.isDigit then none
  else
    match rest with
    | [] => if ip = [] then none else some (digitsVal ip)
    | '.' :: fp =>
      if fp.all Char.isDigit ∧ (ip ≠ [] ∨ fp ≠ []) then
        some ((digitsVal ip : ℚ) + (digitsVal fp : ℚ) / (10 : ℚ) ^ fp.length)
      else none
    | _ => none

/-- Value produced by utils.parse_commission_to_float before its
fraction-to-percent scale correction: strip, null-like sentinel check,
numeric-run extraction, separator disambiguation, float conversion. -/
def parseCommissionRaw (s : Str) : Option ℚ :=
  let v := pyStrip s
  if v = [] ∨ pyLower v = "nan".data ∨ pyLower v = "none".data then none
  else
    match firstNumRun v with
    | none => none
    | some raw => floatOfRun (sepFix raw)

/-- Scale correction of utils.parse_commission_to_float: a value v with
0 < v <= 1 is interpreted as a fraction and multiplied by 100. -/
def scaleCorrect (v : ℚ) : ℚ :=
  if 0 < v ∧ v ≤ 1 then v * 100 else v

/-- Embedding of utils.parse_commission_to_float on string input.  Values
outside [0,100] are returned unmodified (the Python code only logs a
warning for them). -/
def parseCommissionToFloat (s : Str) : Option ℚ :=
  (parseCommissionRaw s).map scaleCorrect

/-- A canonical record of the legacy lookup table: the columns Kategori,
Alt Kategori, Ürün Grubu and Komisyon_%_KDV_Dahil of the loaded CSV (text
columns are strings; the commission is a number or missing). -/
structure Rec where
  kategori : Str
  altKategori : Str
  urunGrubu : Str
  kom : Option ℚ
deriving DecidableEq, Repr

/-- Substring containment: the semantics of pandas str.contains with the
re.escape()d normalized query (no word boundaries). -/
def containsSub (q s : Str) : Bool :=
  (List.range (s.length + 1)).any (fun i => (s.drop i).take q.length = q)

/-- Python regex word-character class \w, modelled as ASCII alphanumerics
plus underscore (normalized text is ASCII on the alphabet of this data). -/
def isWordChar (c : Char) : Bool :=
  c.isAlphanum || c = '_'

/-- Whether a regex word boundary \b holds at position i of s: exactly one
of the adjacent positions holds a word character (out of range counts as
non-word). -/
def wordBoundaryAt (s : Str) (i : Nat) : Bool :=
  (match s.get? (i - 1), i with
   | _, 0 => false
   | none, _ => false
   | some c, _ => isWordChar c) !=
  (match s.get? i with
   | none => false
   | some c => isWordChar c)

/-- Semantics of the exact-word search pattern
create_search_pattern(query, exact_word=True), i.e. \b + re.escape(q) + \b:
q occurs in s with word boundaries at both ends. -/
def containsWholeWord (q s : Str) : Bool :=
  (List.range (s.length + 1)).any
    (fun i => (s.drop i).take q.length = q
      && wordBoundaryAt s i && wordBoundaryAt s (i + q.length))

/-- Tier-1 predicate of search_products: exact word match in the normalized
product group column. -/
def exactPred (qn : Str) (r : Rec) : Bool :=
  containsWholeWord qn (normalizeText r.urunGrubu)

/-- Tier-2 predicate: substring match in the normalized product group. -/
def partPred (qn : Str) (r : Rec) : Bool :=
  containsSub qn (normalizeText r.urunGrubu)

/-- Tier-3 predicate: substring match in the normalized category or
subcategory. -/
def catPred (qn : Str) (r : Rec) : Bool :=
  containsSub qn (normalizeText r.kategori)
    || containsSub qn (normalizeText r.altKategori)

/-- Tier-5 predicate: substring match in any of the three normalized text
columns. -/
def broadPred (qn : Str) (r : Rec) : Bool :=
  containsSub qn (normalizeText r.kategori)
    || containsSub qn (normalizeText r.altKategori)
    || containsSub qn (normalizeText r.urunGrubu)

/-- Exact-word tier result set (tier 1 of search_products). -/
def exactTier (df : List Rec) (qn : Str) : List Rec :=
  df.filter (exactPred qn)

/-- Substring tier result set (tier 2 of search_products). -/
def partTier (df : List Rec) (qn : Str) : List Rec :=
  df.filter (partPred qn)

/-- Category tier result set (tier 3 of search_products). -/
def catTier (df : List Rec) (qn : Str) : List Rec :=
  df.filter (catPred qn)

/-- Broad-fallback tier result set (tier 5 of search_products). -/
def broadTier (df : List Rec) (qn : Str) : List Rec :=
  df.filter (broadPred qn)

/-- Drop duplicates keeping the first occurrence (pandas Series.unique /
DataFrame.drop_duplicates order). -/
def dedupKeepFirst {α : Type} [DecidableEq α] : List α → List α :=
  go []
where
  go (seen : List α) : List α → List α
    | [] => []
    | a :: rest => if a ∈ seen then go seen rest else a :: go (a :: seen) rest

/-- Python string comparison (code-point lexicographic), as used by
sorted() in get_unique_values_from_column. -/
def strLe : Str → Str → Prop
  | [], _ => True
  | _ :: _, [] => False
  | x :: xs, y :: ys => x < y ∨ (x = y ∧ strLe xs ys)

instance : DecidableRel strLe := fun a b => by
  induction a generalizing b with
  | nil => exact isTrue trivial
  | cons x xs ih =>
    cases b with
    | nil => exact isFalse id
    | cons y ys => exact @instDecidableOr _ _ _ (@instDecidableAnd _ _ _ (ih ys))

/-- Embedding of utils.get_unique_values_from_column for the Ürün Grubu
column with the default min_length = 2: distinct values in first-occurrence
order, filtered to length-at-least-2 non-null-like values, sorted. -/
def uniqueProductGroups (df : List Rec) : List Str :=
  List.insertionSort strLe
    ((dedupKeepFirst (df.map Rec.urunGrubu)).filter
      (fun v => v ≠ [] ∧ (pyStrip v).length ≥ 2 ∧
        pyLower (pyStrip v) ∉ ["nan".data, "none".data, "null".data, ([] : Str)]))

/-- Embedding of TrendyolCommissionLookup.search_products.  The emptiness
guard tests the once-normalized query, but every tier pattern is built by
create_search_pattern, which applies normalize_text AGAIN to its argument;
since normalization is not idempotent, a query whose normalized form is a
null-like sentinel (nan, none) yields an empty pattern, degenerating the
exact-word regex to a bare double word-boundary and the substring pattern
to the empty string.  The difflib get_close_matches similarity algorithm is
Python standard-library code external to this repository; it is passed in
as the parameter fz, which receives the raw query and the distinct
product-group values exactly as at the call site. -/
def searchProducts (fz : Str → List Str → List Str) (df : List Rec) (q : Str) :
    List Rec :=
  let qn := normalizeText q
  if qn = [] then []
  else
    let pat := normalizeText qn
    if exactTier df pat ≠ [] then exactTier df pat
    else if partTier df pat ≠ [] then partTier df pat
    else if catTier df pat ≠ [] then catTier df pat
    else
      let fm := fz q (uniqueProductGroups df)
      if fm ≠ [] then df.filter (fun r => fm.contains r.urunGrubu)
      else broadTier df pat

/-- Grouping key of get_best_match: the (Kategori, Alt Kategori, Ürün Grubu)
tuple. -/
abbrev GKey := Str × Str × Str

/-- Key of a record. -/
def recKey (r : Rec) : GKey :=
  (r.kategori, r.altKategori, r.urunGrubu)

/-- The distinct grouping keys of a result set.  Pandas groupby enumerates
keys in its own (sorted) order; every property proved below is independent
of the enumeration order, so the Mathlib dedup order is used. -/
def keysOf (rs : List Rec) : List GKey :=
  (rs.map recKey).dedup

/-- Maximum of an optional and an actual commission value (pandas max
aggregation skips missing values; a group with only missing values
aggregates to missing). -/
def maxOpt (a : Option ℚ) (b : Option ℚ) : Option ℚ :=
  match a, b with
  | none, x => x
  | some x, none => some x
  | some x, some y => some (max x y)

/-- Aggregated commission of the group of key k inside rs: the maximum
commission observed among the records of that group
(groupby(...)["Komisyon_%_KDV_Dahil"].max()). -/
def groupMax (rs : List Rec) (k : GKey) : Option ℚ :=
  rs.foldl (fun acc r => if recKey r = k then maxOpt acc r.kom else acc) none

/-- Order on aggregated commissions: a missing value is below every actual
value (pandas sort_values places NaN last). -/
def optLe : Option ℚ → Option ℚ → Prop
  | none, _ => True
  | some _, none => False
  | some x, some y => x ≤ y

instance : DecidableRel optLe := fun a b => by
  cases a with
  | none => exact isTrue trivial
  | some x =>
    cases b with
    | none => exact isFalse id
    | some y => exact inferInstanceAs (Decidable (x ≤ y))

/-- Descending comparison used to model
sort_values("Komisyon_%_KDV_Dahil", ascending=False) on the aggregated
groups: g may come before h when h's commission is at most g's. -/
def gkGe (g h : GKey × Option ℚ) : Prop :=
  optLe h.2 g.2

instance : DecidableRel gkGe := fun g h =>
  inferInstanceAs (Decidable (optLe h.2 g.2))

instance : IsTotal (GKey × Option ℚ) gkGe where
  total g h := by
    rcases g with ⟨_, a⟩; rcases h with ⟨_, b⟩
    cases a with
    | none => exact Or.inr trivial
    | some x =>
      cases b with
      | none => exact Or.inl trivial
      | some y => exact (le_total y x).imp id id

instance : IsTrans (GKey × Option ℚ) gkGe where
  trans g h k hgh hhk := by
    rcases g with ⟨_, a⟩; rcases h with ⟨_, b⟩; rcases k with ⟨_, c⟩
    cases a with
    | none =>
      cases c with
      | none => exact trivial
      | some z =>
        cases b with
        | none => simp [gkGe, optLe] at hhk
        | some y => simp [gkGe, optLe] at hgh
    | some x =>
      cases c with
      | none => exact trivial
      | some z =>
        cases b with
        | none => simp [gkGe, optLe] at hhk
        | some y => exact le_trans hhk hgh

/-- Embedding of TrendyolCommissionLookup.get_best_match: group by the
three-column key, aggregate each group to its maximum commission, order the
groups by commission descending (missing last), return the first.  The
source's sort (pandas quicksort) fixes no order between groups of equal
commission; every theorem below uses only order-independent consequences. -/
def getBestMatch (rs : List Rec) : Option (GKey × Option ℚ) :=
  if rs = [] then none
  else
    (List.insertionSort gkGe
      ((keysOf rs).map (fun k => (k, groupMax rs k)))).head?

/-- A raw rectangular source table: column names and rows of cells, every
cell already a string (the source applies astype(str) before all uses
modelled here). -/
structure RawTable where
  cols : List Str
  rows : List (List Str)

/-- The per-field column-name candidate lists of
MultiMarketplaceCommissionService.marketplaces[...]["columns_candidates"]. -/
structure Cands where
  category : List Str
  subCategory : List Str
  productGroup : List Str
  commission : List Str

/-- Embedding of _pick_first_present: the first candidate that is literally
one of the table's column names. -/
def pickFirstPresent (cols : List Str) (cands : List Str) : Option Str :=
  cands.find? (fun c => cols.contains c)

/-- Cell of a row under a column name (label lookup; first occurrence of
the label, as pandas column selection on unique labels). -/
def cellAt (tbl : RawTable) (row : List Str) (c : Str) : Str :=
  row.getD (tbl.cols.indexOf c) []

/-- Embedding of MultiMarketplaceCommissionService._extract_number: strip,
replace ',' by '.', then the first match of the regex \d+(\.\d+)? as a
float. -/
def extractNumber (x : Str) : Option ℚ :=
  let s := (pyStrip x).map (fun c => if c = ',' then '.' else c)
  let t := s.dropWhile (fun c => !c.isDigit)
  let ip := t.takeWhile Char.isDigit
  if ip = [] then none
  else
    match t.drop ip.length with
    | '.' :: rest =>
      let fp := rest.takeWhile Char.isDigit
      if fp = [] then some (digitsVal ip)
      else some ((digitsVal ip : ℚ) + (digitsVal fp : ℚ) / (10 : ℚ) ^ fp.length)
    | _ => some (digitsVal ip)

/-- The 0.95 quantile with linear interpolation of a nonempty list
(pandas Series.quantile(0.95) over the non-missing values). -/
def quantile95 (xs : List ℚ) : ℚ :=
  let s := List.insertionSort (fun a b : ℚ => a ≤ b) xs
  let n := s.length
  let lo : Nat := 19 * (n - 1) / 20
  let h : ℚ := (19 * (n - 1) : ℕ) / 20
  let vlo := s.getD lo 0
  let vhi := s.getD (lo + 1) vlo
  vlo + (h - lo) * (vhi - vlo)

/-- Embedding of MultiMarketplaceCommissionService._fix_scale: when the
series has at least one actual value and its 0.95 quantile is at most 1,
every value of the series is multiplied by 100. -/
def fixScaleSeries (vals : List (Option ℚ)) : List (Option ℚ) :=
  let xs := vals.filterMap id
  if xs ≠ [] ∧ quantile95 xs ≤ 1 then vals.map (Option.map (· * 100))
  else vals

/-- A reconciled flat-4 record: the output schema
[Kategori, Alt Kategori, Ürün Grubu, Komisyon_%_KDV_Dahil] of
_normalize_to_flat4. -/
structure Flat4 where
  kategori : Str
  altKategori : Str
  urunGrubu : Str
  kom : Option ℚ
deriving DecidableEq, Repr

/-- Three-list pointwise combination (used to assemble the output columns
of _normalize_to_flat4 into records). -/
def zipWith3 {α β γ δ : Type} (f : α → β → γ → δ) :
    List α → List β → List γ → List δ
  | a :: as, b :: bs, c :: cs => f a b c :: zipWith3 f as bs cs
  | _, _, _ => []

/-- Embedding of MultiMarketplaceCommissionService._normalize_to_flat4.
Returns none where the source raises: when no product-group candidate
column is present, or when neither a category nor a sub-category candidate
column is present.  Otherwise builds the four columns (text columns
stripped; when category and sub-category resolve to the same column, or one
of them is unresolved, the one resolved column fills Kategori and
Alt Kategori is left empty), parses and series-scale-corrects the
commission column, drops rows whose three text fields are all empty, and
drops exact duplicate rows keeping the first. -/
def normalizeToFlat4 (tbl : RawTable) (cands : Cands) : Option (List Flat4) :=
  let catCol := (pickFirstPresent tbl.cols cands.category).getD []
  let subCol := (pickFirstPresent tbl.cols cands.subCategory).getD []
  let grpCol := (pickFirstPresent tbl.cols cands.productGroup).getD []
  let comCol := (pickFirstPresent tbl.cols cands.commission).getD []
  if grpCol = [] then none
  else if catCol = [] ∧ subCol = [] then none
  else
    let katSub : List (Str × Str) :=
      if catCol ≠ [] ∧ subCol ≠ [] ∧ catCol ≠ subCol then
        tbl.rows.map (fun row =>
          (pyStrip (cellAt tbl row catCol), pyStrip (cellAt tbl row subCol)))
      else
        let useCol := if catCol ≠ [] then catCol else subCol
        tbl.rows.map (fun row => (pyStrip (cellAt tbl row useCol), []))
    let grps := tbl.rows.map (fun row => pyStrip (cellAt tbl row grpCol))
    let koms : List (Option ℚ) :=
      if comCol ≠ [] then
        fixScaleSeries (tbl.rows.map (fun row => extractNumber (cellAt tbl row comCol)))
      else tbl.rows.map (fun _ => none)
    let recs := zipWith3 (fun (ks : Str × Str) g km =>
      Flat4.mk ks.1 ks.2 g km) katSub grps koms
    let filtered := recs.filter (fun r =>
      r.kategori ≠ [] ∨ r.altKategori ≠ [] ∨ r.urunGrubu ≠ [])
    some (dedupKeepFirst filtered)

/-- The ten ASCII digit characters. -/
def digitChars : List Char :=
  ['0','1','2','3','4','5','6','7','8','9']

/-- A character is stable under the whole per-character normalization
pipeline: lowering fixes it, the Turkish substitution table fixes it, and
whitespace replacement fixes it. -/
def normStable (c : Char) : Prop :=
  pyLowerChar c = [c] ∧ trChar c = c ∧ wsToSpace c = c

instance (c : Char) : Decidable (normStable c) :=
  inferInstanceAs (Decidable (_ ∧ _ ∧ _))

/-- Similarity oracle returning no close matches (a concrete instance of
the external difflib collaborator, used by concrete witnesses). -/
def noFuzzy : Str → List Str → List Str :=
  fun _ _ => []

/-- Witness record: Akıllı Telefon at commission 15. -/
def recAk15 : Rec :=
  ⟨"Elektronik".data, "Telefon".data, "Akıllı Telefon".data, some 15⟩

/-- Witness record: the identical grouping tuple at commission 18. -/
def recAk18 : Rec :=
  ⟨"Elektronik".data, "Telefon".data, "Akıllı Telefon".data, some 18⟩

/-- Witness record whose category (but not product group) mentions
telephones. -/
def recKablo : Rec :=
  ⟨"Telefonlar".data, "Aksesuar".data, "Kablo".data, some 9⟩

/-- Witness record matching nothing telephone-related. -/
def recTava : Rec :=
  ⟨"Ev".data, "Mutfak".data, "Tava".data, some 8⟩

/-- Record whose product group contains the word None, so that the
sentinel query nöne (normalized: none) matches it as a whole word. -/
def recNoneAks : Rec :=
  ⟨"Aksesuar".data, "Diğer".data, "None Aksesuar".data, some 5⟩

/-- Witness table with a category column and an empty product-group cell. -/
def tblEmptyGrp : RawTable :=
  ⟨["Kategori".data, "Ürün Grubu".data], [["Elektronik".data, "".data]]⟩

/-- Witness table without any product-group candidate column. -/
def tblNoGrp : RawTable :=
  ⟨["Foo".data], [["x".data]]⟩

/-- Witness table with a single shared category column. -/
def tblShared : RawTable :=
  ⟨["Kategori".data, "Ürün Grubu".data], [["Giyim".data, "Elbise".data]]⟩

/-- Witness candidate lists in the shape of the trendyol profile of app.py
(category and sub-category lists that resolve distinct columns when both
exist). -/
def candsPlain : Cands :=
  ⟨["Kategori".data], ["Alt Kategori".data], ["Ürün Grubu".data],
   ["Komisyon_%_KDV_Dahil".data]⟩

/-- Witness candidate lists in the shape of the hepsiburada profile of
app.py: on a table having only a Kategori column, both the category and
the sub-category field resolve to that same column. -/
def candsShared : Cands :=
  ⟨["Ana Kategori".data, "Kategori".data], ["Kategori".data, "Alt Kategori".data],
   ["Ürün Grubu".data], ["Komisyon_%_KDV_Dahil".data]⟩

theorem listMapId {α : Type} {f : α → α} {l : List α} (h : ∀ x ∈ l, f x = x) :
    l.map f = l := by
  induction l with
  | nil => rfl
  | cons a r ih =>
    simp only [List.map_cons, h a (List.mem_cons_self a r)]
    rw [ih (fun x hx => h x (List.mem_cons_of_mem a hx))]

theorem listTakeWhileAll {α : Type} {p : α → Bool} {l : List α}
    (h : ∀ x ∈ l, p x = true) : l.takeWhile p = l := by
  induction l with
  | nil => rfl
  | cons a r ih =>
    rw [List.takeWhile_cons, if_pos (h a (List.mem_cons_self a r))]
    rw [ih (fun x hx => h x (List.mem_cons_of_mem a hx))]

theorem listDropWhileNone {α : Type} {p : α → Bool} {l : List α}
    (h : ∀ x ∈ l, p x = false) : l.dropWhile p = l := by
  cases l with
  | nil => rfl
  | cons a r =>
    rw [List.dropWhile_cons, if_neg]
    simp [h a (List.mem_cons_self a r)]

theorem mem_dedupKeepFirst_go {α : Type} [DecidableEq α] {a : α} :
    ∀ {seen : List α} {l : List α}, a ∈ dedupKeepFirst.go seen l → a ∈ l := by
  intro seen l
  induction l generalizing seen with
  | nil => intro h; exact absurd h (by simp [dedupKeepFirst.go])
  | cons b r ih =>
    intro h
    rw [dedupKeepFirst.go] at h
    by_cases hb : b ∈ seen
    · rw [if_pos hb] at h
      exact List.mem_cons_of_mem b (ih h)
    · rw [if_neg hb] at h
      rcases List.mem_cons.mp h with h1 | h2
      · exact h1 ▸ List.mem_cons_self b r
      · exact List.mem_cons_of_mem b (ih h2)

theorem mem_dedupKeepFirst {α : Type} [DecidableEq α] {a : α} {l : List α}
    (h : a ∈ dedupKeepFirst l) : a ∈ l :=
  mem_dedupKeepFirst_go h

/-- Claim C10: when the exact-word, substring, category and fuzzy tiers
(evaluated, as in the source, over the pattern create_search_pattern builds
from the normalized query) all produce no result, the broad fallback tier
produces no result either — its mask is the union of the substring and
category masks over the same pattern and fields — so search_products
returns the empty result. -/
theorem broadTierNeverContributes (fz : Str → List Str → List Str)
    (df : List Rec) (q : Str)
    (h1 : exactTier df (normalizeText (normalizeText q)) = [])
    (h2 : partTier df (normalizeText (normalizeText q)) = [])
    (h3 : catTier df (normalizeText (normalizeText q)) = [])
    (h4 : fz q (uniqueProductGroups df) = []) :
    searchProducts fz df q = [] := by
  have hb : broadTier df (normalizeText (normalizeText q)) = [] := by
    apply List.filter_eq_nil_iff.mpr
    intro r hr
    have hp := List.filter_eq_nil_iff.mp h2 r hr
    have hc := List.filter_eq_nil_iff.mp h3 r hr
    simp only [partPred, Bool.not_eq_true] at hp
    simp only [catPred, Bool.or_eq_true, not_or, Bool.not_eq_true] at hc
    simp [broadPred, hp, hc.1, hc.2]
  unfold searchProducts
  by_cases hqe : normalizeText q = []
  · rw [if_pos hqe]
  · rw [if_neg hqe, if_neg (by simp [h1]), if_neg (by simp [h2]),
      if_neg (by simp [h3]), h4]
    simp [hb]

/-- Witness for C10: a nonsense query matching no field of a concrete
record set yields the empty result (and no exception), exercising the
exhausted-tier path. -/
theorem broadTierNeverContributes_witness :
    searchProducts noFuzzy [recTava] "zzz".data = [] :=
  broadTierNeverContributes noFuzzy [recTava] "zzz".data
    (by decide) (by decide) (by decide) (by decide)

theorem zipWith3Map {α β γ δ ε : Type} (f : β → γ → δ → ε) (g1 : α → β)
    (g2 : α → γ) (g3 : α → δ) (l : List α) :
    zipWith3 f (l.map g1) (l.map g2) (l.map g3) =
      l.map (fun x => f (g1 x) (g2 x) (g3 x)) := by
  induction l with
  | nil => rfl
  | cons a r ih => simp only [List.map_cons, zipWith3, ih]

theorem fixScaleSeriesMap {α : Type} (g : α → Option ℚ) (l : List α) :
    ∃ φ : Option ℚ → Option ℚ,
      fixScaleSeries (l.map g) = l.map (fun x => φ (g x)) := by
  unfold fixScaleSeries
  by_cases h : (l.map g).filterMap id ≠ [] ∧ quantile95 ((l.map g).filterMap id) ≤ 1
  · exact ⟨Option.map (· * 100), by rw [if_pos h, List.map_map]; rfl⟩
  · exact ⟨id, by rw [if_neg h]; simp⟩

theorem pickGetDNil {cols : List Str} {cs : List Str}
    (h : ∀ c ∈ cs, c ≠ []) :
    ((pickFirstPresent cols cs).getD ([] : Str) = [] ↔
      pickFirstPresent cols cs = none) := by
  cases hp : pickFirstPresent cols cs with
  | none => simp
  | some c =>
    have hm : c ∈ cs := List.mem_of_find?_eq_some hp
    simp [h c hm]

/-- Claim C3: reconciliation fails (the source raises its missing-column
ValueError, modelled as none) exactly when no product-group candidate
column resolves, or neither a category nor a sub-category candidate column
resolves.  The hypotheses record that no candidate alias is the empty
string (true of every candidate list in app.py, where the empty string is
the sentinel the source uses for an unresolved column). -/
theorem reconcileMissingColumnIff (tbl : RawTable) (cands : Cands)
    (hg : ∀ c ∈ cands.productGroup, c ≠ [])
    (hc : ∀ c ∈ cands.category, c ≠ [])
    (hs : ∀ c ∈ cands.subCategory, c ≠ []) :
    normalizeToFlat4 tbl cands = none ↔
      (pickFirstPresent tbl.cols cands.productGroup = none ∨
        (pickFirstPresent tbl.cols cands.category = none ∧
          pickFirstPresent tbl.cols cands.subCategory = none)) := by
  simp only [normalizeToFlat4]
  by_cases hgp : (pickFirstPresent tbl.cols cands.productGroup).getD ([] : Str) = []
  · rw [if_pos hgp]
    simp [(pickGetDNil hg).mp hgp]
  · rw [if_neg hgp]
    have hgn : pickFirstPresent tbl.cols cands.productGroup ≠ none :=
      fun h => hgp ((pickGetDNil hg).mpr h)
    by_cases hcs : (pickFirstPresent tbl.cols cands.category).getD ([] : Str) = [] ∧
        (pickFirstPresent tbl.cols cands.subCategory).getD ([] : Str) = []
    · rw [if_pos hcs]
      simp [hgn, (pickGetDNil hc).mp hcs.1, (pickGetDNil hs).mp hcs.2]
    · rw [if_neg hcs]
      constructor
      · intro h; exact absurd h (by simp)
      · intro h
        rcases h with h | ⟨h1, h2⟩
        · exact absurd h hgn
        · exact absurd ⟨(pickGetDNil hc).mpr h1, (pickGetDNil hs).mpr h2⟩ hcs

/-- Witness for C3: a table containing none of the product-group alias
candidates is rejected by reconciliation. -/
theorem reconcileMissingColumnIff_witness :
    normalizeToFlat4 tblNoGrp candsPlain = none :=
  (reconcileMissingColumnIff tblNoGrp candsPlain (by decide) (by decide)
    (by decide)).mpr (Or.inl (by decide))

/-- Counterexample to claim C4: reconciling a concrete table whose single
row has a category but an empty product-group cell keeps the row, so the
reconciled output contains a record with empty product_group (the source
only drops rows whose three text fields are all empty). -/
theorem reconcileKeepsEmptyGroupRow :
    normalizeToFlat4 tblEmptyGrp candsPlain =
        some [⟨"Elektronik".data, [], [], none⟩] ∧
      ∃ r ∈ [(⟨"Elektronik".data, [], [], none⟩ : Flat4)], r.urunGrubu = [] := by
  constructor
  · decide
  · exact ⟨⟨"Elektronik".data, [], [], none⟩, List.mem_singleton.mpr rfl, rfl⟩

/-- Claim C4 as amended: a record is dropped by reconciliation only when
its category, sub-category and product-group are all empty after trimming;
every reconciled record has at least one nonempty text field (but its
product_group alone may be empty). -/
theorem reconcileDropsAllEmptyRows (tbl : RawTable) (cands : Cands)
    (out : List Flat4) (h : normalizeToFlat4 tbl cands = some out) :
    ∀ r ∈ out, r.kategori ≠ [] ∨ r.altKategori ≠ [] ∨ r.urunGrubu ≠ [] := by
  intro r hr
  simp only [normalizeToFlat4] at h
  split at h
  · exact absurd h (by simp)
  · split at h
    · exact absurd h (by simp)
    · have hout := Option.some.inj h
      rw [← hout] at hr
      have hf := List.of_mem_filter (mem_dedupKeepFirst hr)
      exact of_decide_eq_true hf

/-- Witness for C4's amended theorem at a concrete reconciled table. -/
theorem reconcileDropsAllEmptyRows_witness :
    (⟨"Elektronik".data, [], [], none⟩ : Flat4).kategori ≠ [] ∨
      (⟨"Elektronik".data, [], [], none⟩ : Flat4).altKategori ≠ [] ∨
      (⟨"Elektronik".data, [], [], none⟩ : Flat4).urunGrubu ≠ [] :=
  reconcileDropsAllEmptyRows tblEmptyGrp candsPlain
    [⟨"Elektronik".data, [], [], none⟩] (by decide)
    ⟨"Elektronik".data, [], [], none⟩ (List.mem_singleton.mpr rfl)

theorem memZipWith3 {α β γ δ : Type} {f : α → β → γ → δ} :
    ∀ {as : List α} {bs : List β} {cs : List γ} {x : δ},
      x ∈ zipWith3 f as bs cs →
        ∃ a ∈ as, ∃ b ∈ bs, ∃ c ∈ cs, x = f a b c := by
  intro as
  induction as with
  | nil => intro bs cs x h; exact absurd h (by cases bs <;> cases cs <;> simp [zipWith3])
  | cons a as' ih =>
    intro bs cs x h
    cases bs with
    | nil => exact absurd h (by simp [zipWith3])
    | cons b bs' =>
      cases cs with
      | nil => exact absurd h (by simp [zipWith3])
      | cons c cs' =>
        rw [zipWith3] at h
        rcases List.mem_cons.mp h with h1 | h2
        · exact ⟨a, List.mem_cons_self a as', b, List.mem_cons_self b bs',
            c, List.mem_cons_self c cs', h1⟩
        · rcases ih h2 with ⟨a', ha, b', hb, c', hc, hx⟩
          exact ⟨a', List.mem_cons_of_mem a ha, b', List.mem_cons_of_mem b hb,
            c', List.mem_cons_of_mem c hc, hx⟩

/-- Claim C8: when the category field and the sub-category field resolve to
the same source column, reconciliation succeeds and in every output record
the sub-category is the empty string while the category is populated from
that shared column (the value is never duplicated into both fields). -/
theorem reconcileSharedColumn (tbl : RawTable) (cands : Cands) (col gcol : Str)
    (hcat : pickFirstPresent tbl.cols cands.category = some col)
    (hsub : pickFirstPresent tbl.cols cands.subCategory = some col)
    (hcol : col ≠ [])
    (hgrp : pickFirstPresent tbl.cols cands.productGroup = some gcol)
    (hgne : gcol ≠ []) :
    normalizeToFlat4 tbl cands ≠ none ∧
      ∀ out, normalizeToFlat4 tbl cands = some out →
        ∀ r ∈ out, r.altKategori = [] ∧
          ∃ row ∈ tbl.rows, r.kategori = pyStrip (cellAt tbl row col) := by
  simp only [normalizeToFlat4, hcat, hsub, hgrp, Option.getD_some]
  rw [if_neg hgne, if_neg (fun h : col = [] ∧ col = [] => hcol h.1),
    if_neg (fun h : col ≠ [] ∧ col ≠ [] ∧ col ≠ col => h.2.2 rfl),
    if_pos hcol]
  refine ⟨by simp, ?_⟩
  intro out hout r hr
  rw [← Option.some.inj hout] at hr
  rcases memZipWith3 (List.mem_of_mem_filter (mem_dedupKeepFirst hr)) with
    ⟨a, ha, b, _, c, _, hx⟩
  rcases List.mem_map.mp ha with ⟨row, hrow, ha'⟩
  rw [hx, ← ha']
  exact ⟨rfl, row, hrow, rfl⟩

/-- Witness for C8: reconciling a table whose only category-like column is
Kategori under alias lists that resolve both fields to it yields a record
with empty sub-category. -/
theorem reconcileSharedColumn_witness :
    (⟨"Giyim".data, [], "Elbise".data, none⟩ : Flat4).altKategori = [] :=
  ((reconcileSharedColumn tblShared candsShared "Kategori".data
      "Ürün Grubu".data (by decide) (by decide) (by decide) (by decide)
      (by decide)).2 [⟨"Giyim".data, [], "Elbise".data, none⟩] (by decide)
    ⟨"Giyim".data, [], "Elbise".data, none⟩ (List.mem_singleton.mpr rfl)).1

/-- Claim C7 evaluated on the code: normalize of the Turkish phrase is NOT
an ASCII-only string.  Python lowercases the capital dotted I to 'i'
followed by the combining dot above (U+0307) before the substitution table
runs, and the table does not cover U+0307, so the non-ASCII combining mark
survives in the output (the table's uppercase entries are unreachable
after lowercasing). -/
theorem normalizeIstanbulNotAscii :
    normalizeText "İstanbul Şöyle Çeşit".data =
        'i' :: combDot :: "stanbul soyle cesit".data ∧
      combDot ∈ normalizeText "İstanbul Şöyle Çeşit".data ∧
      127 < combDot.toNat := by
  decide

theorem digitFacts :
    ∀ c ∈ digitChars, pyLowerChar c = [c] ∧ isPyWS c = false ∧
      isNumChar c = true ∧ c.isDigit = true ∧ c ≠ '.' ∧ c ≠ ',' := by
  decide

theorem sepCharFacts :
    pyLowerChar '.' = ['.'] ∧ pyLowerChar ',' = [','] ∧
      isPyWS '.' = false ∧ isPyWS ',' = false ∧
      isNumChar '.' = true ∧ isNumChar ',' = true := by
  decide

theorem pyStripAll {l : Str} (h : ∀ c ∈ l, isPyWS c = false) :
    pyStrip l = l := by
  unfold pyStrip
  rw [listDropWhileNone h,
    listDropWhileNone (fun c hc => h c (List.mem_reverse.mp hc)),
    List.reverse_reverse]

theorem pyLowerCons (a : Char) (r : Str) :
    pyLower (a :: r) = pyLowerChar a ++ pyLower r := by
  simp [pyLower]

theorem pyLowerFix {l : Str} (h : ∀ c ∈ l, pyLowerChar c = [c]) :
    pyLower l = l := by
  induction l with
  | nil => rfl
  | cons a r ih =>
    rw [pyLowerCons, h a (List.mem_cons_self a r),
      ih (fun c hc => h c (List.mem_cons_of_mem a hc))]
    rfl

theorem headDigitNeSentinel {x : Char} {rest : Str} (hx : x ∈ digitChars) :
    x :: rest ≠ "nan".data ∧ x :: rest ≠ "none".data := by
  constructor
  · intro h
    have h' : x :: rest = ['n', 'a', 'n'] := h
    injection h' with h1 _
    subst h1
    exact absurd hx (by decide)
  · intro h
    have h' : x :: rest = ['n', 'o', 'n', 'e'] := h
    injection h' with h1 _
    subst h1
    exact absurd hx (by decide)

theorem takeWhileAppendAll {α : Type} {p : α → Bool} {l1 l2 : List α}
    (h : ∀ x ∈ l1, p x = true) :
    (l1 ++ l2).takeWhile p = l1 ++ l2.takeWhile p := by
  induction l1 with
  | nil => rfl
  | cons a r ih =>
    rw [List.cons_append, List.takeWhile_cons,
      if_pos (h a (List.mem_cons_self a r)), List.cons_append,
      ih (fun x hx => h x (List.mem_cons_of_mem a hx))]

theorem floatOfRunSplit {d c : Str} (hd : ∀ x ∈ d, x ∈ digitChars)
    (hdne : d ≠ []) (hc : ∀ x ∈ c, x ∈ digitChars) :
    floatOfRun (d ++ '.' :: c) =
      some ((digitsVal d : ℚ) + (digitsVal c : ℚ) / (10 : ℚ) ^ c.length) := by
  have hip : (d ++ '.' :: c).takeWhile (fun x => decide (x ≠ '.')) = d := by
    rw [takeWhileAppendAll
      (fun x hx => decide_eq_true ((digitFacts x (hd x hx)).2.2.2.2.1))]
    rw [List.takeWhile_cons, if_neg (by simp)]
    exact List.append_nil d
  unfold floatOfRun
  simp only [hip, List.drop_left]
  rw [if_neg, if_pos]
  · constructor
    · exact List.all_eq_true.mpr (fun x hx => (digitFacts x (hc x hx)).2.2.2.1)
    · exact Or.inl hdne
  · simp only [Bool.not_eq_true', Bool.not_eq_false]
    exact List.all_eq_true.mpr (fun x hx => (digitFacts x (hd x hx)).2.2.2.1)

theorem digitsNoDot {a : Str} (ha : ∀ x ∈ a, x ∈ digitChars) :
    a.filter (fun c => decide (c ≠ '.')) = a :=
  List.filter_eq_self.mpr
    (fun x hx => decide_eq_true ((digitFacts x (ha x hx)).2.2.2.2.1))

theorem digitsMapComma {a : Str} (ha : ∀ x ∈ a, x ∈ digitChars) :
    a.map (fun c => if c = ',' then '.' else c) = a :=
  listMapId (fun x hx => if_neg ((digitFacts x (ha x hx)).2.2.2.2.2))

theorem sepFixBoth {a b c : Str} (hda : ∀ x ∈ a, x ∈ digitChars)
    (hdb : ∀ x ∈ b, x ∈ digitChars) (hdc : ∀ x ∈ c, x ∈ digitChars) :
    sepFix (a ++ '.' :: (b ++ ',' :: c)) = a ++ b ++ '.' :: c := by
  rw [sepFix, if_pos]
  · rw [List.filter_append, digitsNoDot hda, List.filter_cons_of_neg (by simp),
      List.filter_append, digitsNoDot hdb, List.filter_cons_of_pos (by simp),
      digitsNoDot hdc, List.map_append, digitsMapComma hda, List.map_append,
      digitsMapComma hdb, List.map_cons, if_pos rfl, digitsMapComma hdc,
      ← List.append_assoc]
  · constructor
    · exact List.elem_iff.mpr (by simp)
    · exact List.elem_iff.mpr (by simp)

theorem sepFixCommaOnly {a c : Str} (hda : ∀ x ∈ a, x ∈ digitChars)
    (hdc : ∀ x ∈ c, x ∈ digitChars) :
    sepFix (a ++ ',' :: c) = a ++ '.' :: c := by
  have hnodot : ¬((a ++ ',' :: c).contains '.' = true) := by
    intro h
    rcases List.mem_append.mp (List.elem_iff.mp h) with h1 | h1
    · exact absurd ((digitFacts _ (hda _ h1)).2.2.2.2.1) (by simp)
    · rcases List.mem_cons.mp h1 with h2 | h2
      · exact absurd h2 (by decide)
      · exact absurd ((digitFacts _ (hdc _ h2)).2.2.2.2.1) (by simp)
  rw [sepFix, if_neg (fun hh => hnodot hh.2), if_pos (List.elem_iff.mpr (by simp))]
  rw [List.map_append, digitsMapComma hda, List.map_cons, if_pos rfl,
    digitsMapComma hdc]

theorem parseRawDigits {a rest : Str} (hane : a ≠ [])
    (hda : ∀ x ∈ a, x ∈ digitChars)
    (hall : ∀ x ∈ a ++ rest, isNumChar x = true ∧ isPyWS x = false ∧
      pyLowerChar x = [x]) :
    parseCommissionRaw (a ++ rest) = floatOfRun (sepFix (a ++ rest)) := by
  have hstrip : pyStrip (a ++ rest) = a ++ rest :=
    pyStripAll (fun x hx => (hall x hx).2.1)
  have hlow : pyLower (a ++ rest) = a ++ rest :=
    pyLowerFix (fun x hx => (hall x hx).2.2)
  obtain ⟨x, xs, rfl⟩ : ∃ x xs, a = x :: xs := by
    cases a with
    | nil => exact absurd rfl hane
    | cons x xs => exact ⟨x, xs, rfl⟩
  have hsent := @headDigitNeSentinel x (xs ++ rest)
    (hda x (List.mem_cons_self x xs))
  have hrun : firstNumRun (x :: xs ++ rest) = some (x :: xs ++ rest) := by
    unfold firstNumRun
    rw [listDropWhileNone (fun y hy => by simp [(hall y hy).1]),
      listTakeWhileAll (fun y hy => (hall y hy).1)]
    simp
  unfold parseCommissionRaw
  rw [hstrip, if_neg, hrun]
  rw [hlow]
  push_neg
  exact ⟨by simp, hsent.1, hsent.2⟩

/-- Claim C5: separator disambiguation of the commission parser.  The
concrete cases 18%, %18 and 1.234,56 evaluate as the claim states (the
last exceeding 100 and returned unmodified, not clamped), and in general a
numeric run containing both separators has its dots removed as thousands
separators and its comma turned into the decimal point, while a run with
only a comma has the comma turned into the decimal point. -/
theorem parseSeparators :
    parseCommissionToFloat "18%".data = some 18 ∧
    parseCommissionToFloat "%18".data = some 18 ∧
    parseCommissionToFloat "1.234,56".data = some (123456 / 100) ∧
    (100 : ℚ) < 123456 / 100 ∧
    (∀ a b c : Str, a ≠ [] → (∀ x ∈ a, x ∈ digitChars) →
      (∀ x ∈ b, x ∈ digitChars) → (∀ x ∈ c, x ∈ digitChars) →
      parseCommissionToFloat (a ++ '.' :: (b ++ ',' :: c)) =
        some (scaleCorrect ((digitsVal (a ++ b) : ℚ) +
          (digitsVal c : ℚ) / (10 : ℚ) ^ c.length))) ∧
    (∀ a c : Str, a ≠ [] → (∀ x ∈ a, x ∈ digitChars) →
      (∀ x ∈ c, x ∈ digitChars) →
      parseCommissionToFloat (a ++ ',' :: c) =
        some (scaleCorrect ((digitsVal a : ℚ) +
          (digitsVal c : ℚ) / (10 : ℚ) ^ c.length))) := by
  refine ⟨by decide, by decide, ?_, by norm_num, ?_, ?_⟩
  · show (parseCommissionRaw "1.234,56".data).map scaleCorrect = _
    rw [show parseCommissionRaw "1.234,56".data =
      some (((1234 : ℕ) : ℚ) + ((56 : ℕ) : ℚ) / (10 : ℚ) ^ (2 : ℕ)) from rfl]
    rw [Option.map_some', scaleCorrect, if_neg (by norm_num)]
    norm_num
  · intro a b c hane hda hdb hdc
    have hall : ∀ x ∈ a ++ '.' :: (b ++ ',' :: c),
        isNumChar x = true ∧ isPyWS x = false ∧ pyLowerChar x = [x] := by
      intro x hx
      rcases List.mem_append.mp hx with h1 | h1
      · have := digitFacts x (hda x h1)
        exact ⟨this.2.2.1, this.2.1, this.1⟩
      · rcases List.mem_cons.mp h1 with h2 | h2
        · subst h2
          exact ⟨sepCharFacts.2.2.2.2.1, sepCharFacts.2.2.1, sepCharFacts.1⟩
        · rcases List.mem_append.mp h2 with h3 | h3
          · have := digitFacts x (hdb x h3)
            exact ⟨this.2.2.1, this.2.1, this.1⟩
          · rcases List.mem_cons.mp h3 with h4 | h4
            · subst h4
              exact ⟨sepCharFacts.2.2.2.2.2, sepCharFacts.2.2.2.1,
                sepCharFacts.2.1⟩
            · have := digitFacts x (hdc x h4)
              exact ⟨this.2.2.1, this.2.1, this.1⟩
    rw [parseCommissionToFloat, parseRawDigits hane hda hall,
      sepFixBoth hda hdb hdc,
      floatOfRunSplit (fun x hx => (List.mem_append.mp hx).elim (hda x) (hdb x))
        (fun hnil => hane (List.append_eq_nil.mp hnil).1) hdc,
      Option.map_some']
  · intro a c hane hda hdc
    have hall : ∀ x ∈ a ++ ',' :: c,
        isNumChar x = true ∧ isPyWS x = false ∧ pyLowerChar x = [x] := by
      intro x hx
      rcases List.mem_append.mp hx with h1 | h1
      · have := digitFacts x (hda x h1)
        exact ⟨this.2.2.1, this.2.1, this.1⟩
      · rcases List.mem_cons.mp h1 with h2 | h2
        · subst h2
          exact ⟨sepCharFacts.2.2.2.2.2, sepCharFacts.2.2.2.1, sepCharFacts.2.1⟩
        · have := digitFacts x (hdc x h2)
          exact ⟨this.2.2.1, this.2.1, this.1⟩
    rw [parseCommissionToFloat, parseRawDigits hane hda hall,
      sepFixCommaOnly hda hdc, floatOfRunSplit hda hane hdc, Option.map_some']

/-- Witness for C5 applying its thousands-separator clause at the
concrete run 1.2,5. -/
theorem parseSeparators_witness :
    parseCommissionToFloat "1.2,5".data =
      some (scaleCorrect ((digitsVal "12".data : ℚ) +
        (digitsVal "5".data : ℚ) / (10 : ℚ) ^ ("5".data).length)) :=
  parseSeparators.2.2.2.2.1 "1".data "2".data "5".data (by decide)
    (by decide) (by decide) (by decide)

/-- Claim C6: the fraction-to-percent scale correction is applied per
parsed value v exactly when 0 < v <= 1; values above 1 are returned
unscaled, and parse of 0,18 yields 18. -/
theorem scaleCorrectionPerValue :
    (∀ s v, parseCommissionRaw s = some v → 0 < v → v ≤ 1 →
      parseCommissionToFloat s = some (v * 100)) ∧
    (∀ s v, parseCommissionRaw s = some v → 1 < v →
      parseCommissionToFloat s = some v) ∧
    parseCommissionToFloat "0,18".data = some 18 := by
  refine ⟨?_, ?_, ?_⟩
  · intro s v h h1 h2
    rw [parseCommissionToFloat, h, Option.map_some', scaleCorrect,
      if_pos ⟨h1, h2⟩]
  · intro s v h h1
    rw [parseCommissionToFloat, h, Option.map_some', scaleCorrect,
      if_neg (fun hh => absurd h1 (not_lt.mpr hh.2))]
  · show (parseCommissionRaw "0,18".data).map scaleCorrect = _
    rw [show parseCommissionRaw "0,18".data =
      some (((0 : ℕ) : ℚ) + ((18 : ℕ) : ℚ) / (10 : ℚ) ^ (2 : ℕ)) from rfl]
    rw [Option.map_some', scaleCorrect, if_pos (by norm_num)]
    norm_num

/-- Witness for C6 applying its scaling clause at the concrete fractional
input 0,5 (parsed as 0.5 and scaled to 50). -/
theorem scaleCorrectionPerValue_witness :
    parseCommissionToFloat "0,5".data =
      some ((((0 : ℕ) : ℚ) + ((5 : ℕ) : ℚ) / (10 : ℚ) ^ (1 : ℕ)) * 100) :=
  scaleCorrectionPerValue.1 "0,5".data
    (((0 : ℕ) : ℚ) + ((5 : ℕ) : ℚ) / (10 : ℚ) ^ (1 : ℕ)) rfl (by norm_num)
    (by norm_num)

theorem optLeRefl (a : Option ℚ) : optLe a a := by
  cases a with
  | none => exact trivial
  | some x => exact le_refl x

theorem keysOfNeNil {rs : List Rec} (h : rs ≠ []) : keysOf rs ≠ [] := by
  intro hk
  exact h (List.map_eq_nil_iff.mp ((List.dedup_eq_nil (rs.map recKey)).mp hk))

/-- Claim C1: get_best_match groups a result set by the
(category, sub-category, product-group) tuple, aggregates every group to
the maximum commission observed in it, and returns a group whose
aggregated commission is globally highest; on the concrete duplicated
Akıllı Telefon tuple with commissions 15 and 18 it returns 18 (the
maximum, not the first, last or mean). -/
theorem bestMatchTakesGroupMax :
    (∀ rs : List Rec, ∀ g, getBestMatch rs = some g →
        g.2 = groupMax rs g.1 ∧ g.1 ∈ keysOf rs ∧
        ∀ k ∈ keysOf rs, optLe (groupMax rs k) g.2) ∧
    (∀ rs : List Rec, rs ≠ [] → getBestMatch rs ≠ none) ∧
    getBestMatch [recAk15, recAk18] =
      some (("Elektronik".data, "Telefon".data, "Akıllı Telefon".data),
        some 18) := by
  refine ⟨?_, ?_, by decide⟩
  · intro rs g hg
    unfold getBestMatch at hg
    by_cases hrs : rs = []
    · rw [if_pos hrs] at hg
      exact absurd hg (by simp)
    · rw [if_neg hrs] at hg
      have hperm := List.perm_insertionSort gkGe
        ((keysOf rs).map (fun k => (k, groupMax rs k)))
      have hsorted := List.sorted_insertionSort gkGe
        ((keysOf rs).map (fun k => (k, groupMax rs k)))
      cases hS : List.insertionSort gkGe
          ((keysOf rs).map (fun k => (k, groupMax rs k))) with
      | nil => rw [hS] at hg; exact absurd hg (by simp)
      | cons hd tl =>
        rw [hS] at hg hperm hsorted
        have hgd : g = hd := (Option.some.inj hg).symm
        subst hgd
        have hmem : g ∈ (keysOf rs).map (fun k => (k, groupMax rs k)) :=
          hperm.mem_iff.mp (List.mem_cons_self g tl)
        rcases List.mem_map.mp hmem with ⟨k, hk, hgk⟩
        have hg2 : g.2 = groupMax rs g.1 := by rw [← hgk]
        have hg1 : g.1 ∈ keysOf rs := by rw [← hgk]; exact hk
        refine ⟨hg2, hg1, ?_⟩
        intro k' hk'
        have hmem' : (k', groupMax rs k') ∈ g :: tl :=
          hperm.mem_iff.mpr (List.mem_map_of_mem _ hk')
        rcases List.mem_cons.mp hmem' with h1 | h1
        · rw [show groupMax rs k' = g.2 from congrArg Prod.snd h1]
          exact optLeRefl g.2
        · exact List.rel_of_sorted_cons hsorted _ h1
  · intro rs hrs
    unfold getBestMatch
    rw [if_neg hrs]
    have hL : (keysOf rs).map (fun k => (k, groupMax rs k)) ≠ [] := by
      intro h
      exact keysOfNeNil hrs (List.map_eq_nil_iff.mp h)
    have hperm := List.perm_insertionSort gkGe
      ((keysOf rs).map (fun k => (k, groupMax rs k)))
    cases hS : List.insertionSort gkGe
        ((keysOf rs).map (fun k => (k, groupMax rs k))) with
    | nil =>
      rw [hS] at hperm
      exact absurd (hperm.symm.eq_nil) hL
    | cons hd tl => simp

/-- Witness for C1: in the duplicated-tuple result set, the aggregated
commission of the group is at most the best match's 18. -/
theorem bestMatchTakesGroupMax_witness :
    optLe (groupMax [recAk15, recAk18] (recKey recAk15)) (some 18) :=
  (bestMatchTakesGroupMax.1 [recAk15, recAk18]
      (("Elektronik".data, "Telefon".data, "Akıllı Telefon".data), some 18)
      (by decide)).2.2 (recKey recAk15) (by decide)

theorem masterStable : ∀ a : Char, ∀ b ∈ pyLowerChar a,
    normStable (wsToSpace (trChar b)) := by
  intro a b hb
  unfold pyLowerChar at hb
  by_cases hI : a = 'İ'
  · rw [if_pos hI] at hb
    rcases List.mem_cons.mp hb with h | h
    · subst h; decide
    · rcases List.mem_cons.mp h with h2 | h2
      · subst h2; decide
      · exact absurd h2 (by simp)
  · rw [if_neg hI] at hb
    cases hf : upperLower.find? (fun p => decide (p.1 = a)) with
    | some p =>
      rw [hf] at hb
      have hmem : p ∈ upperLower := List.mem_of_find?_eq_some hf
      have hall : ∀ q ∈ upperLower, normStable (wsToSpace (trChar q.2)) := by
        decide
      rw [List.mem_singleton.mp hb]
      exact hall p hmem
    | none =>
      rw [hf] at hb
      rw [List.mem_singleton.mp hb]
      have hkeys : ∀ p ∈ upperLower, ¬(p.1 = a) := by
        intro p hp hpa
        have := List.find?_eq_none.mp hf p hp
        simp [hpa] at this
      cases hft : trTable.find? (fun q => decide (q.1 = a)) with
      | some q =>
        have hmem : q ∈ trTable := List.mem_of_find?_eq_some hft
        have hq1 : q.1 = a := by
          have h := List.find?_some hft
          simpa using h
        have htr : trChar a = q.2 := by rw [trChar, hft]; rfl
        rw [htr]
        have hall : ∀ q ∈ trTable,
            (q.1 = 'İ' ∨ q.1 = 'Ğ' ∨ q.1 = 'Ü' ∨ q.1 = 'Ş' ∨ q.1 = 'Ö' ∨
              q.1 = 'Ç') ∨ normStable (wsToSpace q.2) := by decide
        rcases hall q hmem with hup | hok
        · exfalso
          rcases hup with h | h | h | h | h | h
          · exact hI (hq1.symm.trans h)
          · exact hkeys ('Ğ','ğ') (by decide) (h.symm.trans hq1)
          · exact hkeys ('Ü','ü') (by decide) (h.symm.trans hq1)
          · exact hkeys ('Ş','ş') (by decide) (h.symm.trans hq1)
          · exact hkeys ('Ö','ö') (by decide) (h.symm.trans hq1)
          · exact hkeys ('Ç','ç') (by decide) (h.symm.trans hq1)
        · exact hok
      | none =>
        have htr : trChar a = a := by rw [trChar, hft]; rfl
        rw [htr]
        by_cases hws : isPyWS a = true
        · rw [wsToSpace, if_pos hws]; decide
        · rw [wsToSpace, if_neg hws]
          refine ⟨?_, ?_, ?_⟩
          · rw [pyLowerChar, if_neg hI, hf]
          · rw [trChar, hft]; rfl
          · rw [wsToSpace, if_neg hws]
  
theorem pyLowerCharNeNil (c : Char) : pyLowerChar c ≠ [] := by
  unfold pyLowerChar
  by_cases hI : c = 'İ'
  · rw [if_pos hI]; simp
  · rw [if_neg hI]
    cases hf : upperLower.find? (fun p => decide (p.1 = c)) <;> simp

theorem pyLowerCharNoWS {c : Char} (h : isPyWS c = false) :
    ∀ d ∈ pyLowerChar c, isPyWS d = false := by
  intro d hd
  unfold pyLowerChar at hd
  by_cases hI : c = 'İ'
  · rw [if_pos hI] at hd
    rcases List.mem_cons.mp hd with h1 | h1
    · subst h1; decide
    · rcases List.mem_cons.mp h1 with h2 | h2
      · subst h2; decide
      · exact absurd h2 (by simp)
  · rw [if_neg hI] at hd
    cases hf : upperLower.find? (fun p => decide (p.1 = c)) with
    | some p =>
      rw [hf] at hd
      rw [List.mem_singleton.mp hd]
      have hall : ∀ q ∈ upperLower, isPyWS q.2 = false := by decide
      exact hall p (List.mem_of_find?_eq_some hf)
    | none =>
      rw [hf] at hd
      rw [List.mem_singleton.mp hd]
      exact h

theorem trCharNoWS {c : Char} (h : isPyWS c = false) :
    isPyWS (wsToSpace (trChar c)) = false := by
  cases hft : trTable.find? (fun q => decide (q.1 = c)) with
  | some q =>
    have htr : trChar c = q.2 := by rw [trChar, hft]; rfl
    rw [htr]
    have hall : ∀ q ∈ trTable, isPyWS (wsToSpace q.2) = false := by decide
    exact hall q (List.mem_of_find?_eq_some hft)
  | none =>
    have htr : trChar c = c := by rw [trChar, hft]; rfl
    rw [htr, wsToSpace, if_neg (by simp [h])]
    exact h

theorem memPyLower {c : Char} {s : Str} (h : c ∈ pyLower s) :
    ∃ a ∈ s, c ∈ pyLowerChar a := by
  rcases List.mem_flatten.mp h with ⟨l, hl, hc⟩
  rcases List.mem_map.mp hl with ⟨a, ha, rfl⟩
  exact ⟨a, ha, hc⟩

theorem pyLowerStrNeNil {s : Str} (h : s ≠ []) : pyLower s ≠ [] := by
  obtain ⟨c, s', rfl⟩ := List.exists_cons_of_ne_nil h
  rw [pyLowerCons]
  intro hh
  exact pyLowerCharNeNil c (List.append_eq_nil.mp hh).1

theorem pyLowerHeadOf {s : Str} {c : Char} (h : s.head? = some c) :
    ∃ d ∈ pyLowerChar c, (pyLower s).head? = some d := by
  have hne : s ≠ [] := by
    intro hn
    rw [hn] at h
    exact absurd h (by simp)
  obtain ⟨x, s', rfl⟩ := List.exists_cons_of_ne_nil hne
  have hx : x = c := by simpa using h
  subst hx
  rw [pyLowerCons, List.head?_append]
  cases hd : (pyLowerChar x).head? with
  | none => exact absurd (List.head?_eq_none_iff.mp hd) (pyLowerCharNeNil x)
  | some d =>
    exact ⟨d, List.mem_of_mem_head? (Option.mem_def.mpr hd), rfl⟩

theorem getLastExists {α : Type} : ∀ {l : List α}, l ≠ [] →
    ∃ y, l.getLast? = some y ∧ y ∈ l := by
  intro l
  induction l with
  | nil => intro h; exact absurd rfl h
  | cons a r ih =>
    intro _
    cases r with
    | nil => exact ⟨a, rfl, List.mem_singleton.mpr rfl⟩
    | cons b r' =>
      rcases ih (by simp) with ⟨y, hy, hmem⟩
      exact ⟨y, by rw [List.getLast?_cons_cons]; exact hy,
        List.mem_cons_of_mem a hmem⟩

theorem getLastAppendNe {α : Type} {pre k : List α} (h : k ≠ []) :
    (pre ++ k).getLast? = k.getLast? := by
  rw [List.getLast?_append]
  rcases getLastExists h with ⟨y, hy, _⟩
  rw [hy]
  rfl

theorem dropWhilePrefix {α : Type} {p : α → Bool} :
    ∀ l : List α, ∃ pre, l = pre ++ l.dropWhile p := by
  intro l
  induction l with
  | nil => exact ⟨[], rfl⟩
  | cons a r ih =>
    by_cases hp : p a = true
    · rcases ih with ⟨pre, hpre⟩
      exact ⟨a :: pre, by rw [List.dropWhile_cons, if_pos hp, List.cons_append,
        ← hpre]⟩
    · exact ⟨[], by rw [List.dropWhile_cons, if_neg hp]; rfl⟩

theorem headDropWhileFalse {α : Type} {p : α → Bool} :
    ∀ {l : List α} {a : α}, (l.dropWhile p).head? = some a → p a = false := by
  intro l
  induction l with
  | nil => intro a h; exact absurd h (by simp)
  | cons x xs ih =>
    intro a h
    rw [List.dropWhile_cons] at h
    by_cases hp : p x = true
    · rw [if_pos hp] at h
      exact ih h
    · rw [if_neg hp] at h
      have : x = a := by simpa using h
      subst this
      exact Bool.not_eq_true _ ▸ hp

theorem stripHeadNoWS {l : Str} {a : Char} (h : (pyStrip l).head? = some a) :
    isPyWS a = false := by
  unfold pyStrip at h
  rw [List.head?_reverse] at h
  have hne : (((l.dropWhile isPyWS).reverse).dropWhile isPyWS) ≠ [] := by
    intro hn
    rw [hn] at h
    exact absurd h (by simp)
  rcases dropWhilePrefix ((l.dropWhile isPyWS).reverse) (p := isPyWS) with
    ⟨pre, hpre⟩
  rw [show (((l.dropWhile isPyWS).reverse).dropWhile isPyWS).getLast? =
      ((l.dropWhile isPyWS).reverse).getLast? from by
    conv_rhs => rw [hpre]
    exact (getLastAppendNe hne).symm] at h
  rw [List.getLast?_reverse] at h
  exact headDropWhileFalse h

theorem stripLastNoWS {l : Str} {a : Char} (h : (pyStrip l).getLast? = some a) :
    isPyWS a = false := by
  unfold pyStrip at h
  rw [List.getLast?_reverse] at h
  exact headDropWhileFalse h

theorem stripFixEnds {l : Str}
    (hh : ∀ a, l.head? = some a → isPyWS a = false)
    (hl : ∀ a, l.getLast? = some a → isPyWS a = false) :
    pyStrip l = l := by
  unfold pyStrip
  have h1 : l.dropWhile isPyWS = l := by
    cases l with
    | nil => rfl
    | cons a r =>
      rw [List.dropWhile_cons, if_neg (by simp [hh a rfl])]
  rw [h1]
  have h2 : l.reverse.dropWhile isPyWS = l.reverse := by
    cases hr : l.reverse with
    | nil => rfl
    | cons a r =>
      rw [List.dropWhile_cons, if_neg]
      have : l.getLast? = some a := by
        rw [← List.head?_reverse, hr]; rfl
      simp [hl a this]
  rw [h2, List.reverse_reverse]

theorem squeezeNeNil : ∀ l : Str, l ≠ [] → squeeze l ≠ []
  | [], h => absurd rfl h
  | [a], _ => by simp [squeeze]
  | a :: b :: r, _ => by
    rw [squeeze]
    split
    · exact squeezeNeNil (b :: r) (by simp)
    · simp

theorem squeezeHead : ∀ (b : Char) (r : Str), (squeeze (b :: r)).head? = some b
  | b, [] => by simp [squeeze]
  | b, c :: r' => by
    rw [squeeze]
    split
    case isTrue h => rw [squeezeHead c r', h.1, h.2]
    case isFalse h => simp

theorem squeezeLast : ∀ (b : Char) (r : Str),
    (squeeze (b :: r)).getLast? = (b :: r).getLast?
  | b, [] => by simp [squeeze]
  | b, c :: r' => by
    rw [squeeze]
    split
    · rw [squeezeLast c r', List.getLast?_cons_cons]
    · rw [List.getLast?_cons_cons]
      obtain ⟨x, xs, hx⟩ :=
        List.exists_cons_of_ne_nil (squeezeNeNil (c :: r') (by simp))
      rw [hx, List.getLast?_cons_cons, ← hx, squeezeLast c r']

theorem squeezeChain : ∀ l : Str,
    List.Chain' (fun a b : Char => ¬(a = ' ' ∧ b = ' ')) (squeeze l)
  | [] => by simp [squeeze]
  | [a] => by simp [squeeze]
  | a :: b :: r => by
    rw [squeeze]
    split
    · exact squeezeChain (b :: r)
    case isFalse h =>
      rw [List.chain'_cons']
      refine ⟨?_, squeezeChain (b :: r)⟩
      intro y hy
      rw [squeezeHead b r] at hy
      rw [Option.some.inj (Option.mem_def.mp hy)] at h
      exact h

theorem squeezeFixOfChain : ∀ l : Str,
    List.Chain' (fun a b : Char => ¬(a = ' ' ∧ b = ' ')) l → squeeze l = l
  | [], _ => rfl
  | [a], _ => by simp [squeeze]
  | a :: b :: r, h => by
    rw [squeeze, if_neg (List.chain'_cons.mp h).1,
      squeezeFixOfChain (b :: r) (List.chain'_cons.mp h).2]

theorem squeezeSubset : ∀ l : Str, ∀ c ∈ squeeze l, c ∈ l
  | [], c, h => by simp [squeeze] at h
  | [a], c, h => by simpa [squeeze] using h
  | a :: b :: r, c, h => by
    rw [squeeze] at h
    split at h
    · exact List.mem_cons_of_mem a (squeezeSubset (b :: r) c h)
    · rcases List.mem_cons.mp h with h1 | h1
      · exact h1 ▸ List.mem_cons_self a (b :: r)
      · exact List.mem_cons_of_mem a (squeezeSubset (b :: r) c h1)

theorem pyLowerLastOf {s : Str} {c : Char} (h : s.getLast? = some c) :
    ∃ d ∈ pyLowerChar c, (pyLower s).getLast? = some d := by
  induction s with
  | nil => exact absurd h (by simp)
  | cons a r ih =>
    cases r with
    | nil =>
      have hac : a = c := by simpa using h
      subst hac
      rw [pyLowerCons, show pyLower ([] : Str) = [] from rfl, List.append_nil]
      obtain ⟨d, hd, hmem⟩ := getLastExists (pyLowerCharNeNil a)
      exact ⟨d, hmem, hd⟩
    | cons b r' =>
      rw [List.getLast?_cons_cons] at h
      rcases ih h with ⟨d, hdmem, hd⟩
      refine ⟨d, hdmem, ?_⟩
      rw [pyLowerCons, getLastAppendNe (pyLowerStrNeNil (by simp))]
      exact hd

theorem normalizeFixed {y : Str} (hyne : y ≠ [])
    (hnan : y ≠ "nan".data) (hnone : y ≠ "none".data)
    (hchar : ∀ c ∈ y, normStable c)
    (hh : ∀ a, y.head? = some a → isPyWS a = false)
    (hl : ∀ a, y.getLast? = some a → isPyWS a = false)
    (hchain : List.Chain' (fun a b : Char => ¬(a = ' ' ∧ b = ' ')) y) :
    normalizeText y = y := by
  have hstrip : pyStrip y = y := stripFixEnds hh hl
  have hlow : pyLower y = y := pyLowerFix (fun c hc => (hchar c hc).1)
  simp only [normalizeText, collapseWS]
  rw [hstrip, hlow, if_neg (by push_neg; exact ⟨hnan, hnone, hyne⟩),
    listMapId (fun c hc => (hchar c hc).2.1),
    listMapId (fun c hc => (hchar c hc).2.2),
    squeezeFixOfChain y hchain]

/-- Stability of normalization outside the null-like sentinel outputs: a
second application of normalize_text fixes any normalized form other than
nan and none.  Shared by the idempotence claim and by the analysis of the
re-normalization create_search_pattern performs on the query. -/
theorem normalizeIdemAux (x : Str)
    (h1 : normalizeText x ≠ "nan".data)
    (h2 : normalizeText x ≠ "none".data) :
    normalizeText (normalizeText x) = normalizeText x := by
  by_cases hs : pyLower (pyStrip x) = "nan".data ∨
      pyLower (pyStrip x) = "none".data ∨ pyLower (pyStrip x) = []
  · have hx0 : normalizeText x = [] := by
      simp only [normalizeText]
      rw [if_pos hs]
    rw [hx0]
    rfl
  · have hy : normalizeText x =
        squeeze (((pyLower (pyStrip x)).map trChar).map wsToSpace) := by
      simp only [normalizeText, collapseWS]
      rw [if_neg hs]
    push_neg at hs
    have htne : pyLower (pyStrip x) ≠ [] := hs.2.2
    have hsne : pyStrip x ≠ [] := fun hn => htne (by rw [hn]; rfl)
    obtain ⟨p0, ps, hps⟩ := List.exists_cons_of_ne_nil hsne
    have hheadS : (pyStrip x).head? = some p0 := by rw [hps]; rfl
    obtain ⟨d0, hd0mem, hd0⟩ := pyLowerHeadOf hheadS
    obtain ⟨pl, hpl, _⟩ := getLastExists hsne
    obtain ⟨dl, hdlmem, hdl⟩ := pyLowerLastOf hpl
    have hw0 : isPyWS (wsToSpace (trChar d0)) = false :=
      trCharNoWS (pyLowerCharNoWS (stripHeadNoWS hheadS) d0 hd0mem)
    have hwl : isPyWS (wsToSpace (trChar dl)) = false :=
      trCharNoWS (pyLowerCharNoWS (stripLastNoWS hpl) dl hdlmem)
    have hune : ((pyLower (pyStrip x)).map trChar).map wsToSpace ≠ [] := by
      intro hn
      exact htne (List.map_eq_nil_iff.mp (List.map_eq_nil_iff.mp hn))
    have huhead : (((pyLower (pyStrip x)).map trChar).map wsToSpace).head? =
        some (wsToSpace (trChar d0)) := by
      rw [List.head?_map, List.head?_map, hd0]
      rfl
    have hulast : (((pyLower (pyStrip x)).map trChar).map wsToSpace).getLast? =
        some (wsToSpace (trChar dl)) := by
      rw [List.getLast?_map, List.getLast?_map, hdl]
      rfl
    obtain ⟨u0, us, hus⟩ := List.exists_cons_of_ne_nil hune
    rw [hus] at huhead hulast
    have hu0 : u0 = wsToSpace (trChar d0) :=
      Option.some.inj ((show (u0 :: us).head? = some u0 from rfl).symm.trans
        huhead)
    rw [hy] at h1 h2 ⊢
    apply normalizeFixed
    · exact squeezeNeNil _ hune
    · exact h1
    · exact h2
    · intro c hc
      rcases List.mem_map.mp (squeezeSubset _ c hc) with ⟨c1, hc1, rfl⟩
      rcases List.mem_map.mp hc1 with ⟨c0, hc0, rfl⟩
      rcases memPyLower hc0 with ⟨a, _, hmem⟩
      exact masterStable a c0 hmem
    · intro a ha
      rw [hus, squeezeHead u0 us] at ha
      rw [← Option.some.inj ha, hu0]
      exact hw0
    · intro a ha
      rw [hus, squeezeLast u0 us, hulast] at ha
      rw [← Option.some.inj ha]
      exact hwl
    · exact squeezeChain _

/-- Claim C9 as amended: normalize_text is idempotent on every input whose
normalized form is not one of the null-like sentinel strings nan and none;
an input such as nöne normalizes to none, which a second application of
normalize_text collapses to the empty string. -/
theorem normalizeIdempotentOutsideSentinels (x : Str)
    (h1 : normalizeText x ≠ "nan".data)
    (h2 : normalizeText x ≠ "none".data) :
    normalizeText (normalizeText x) = normalizeText x :=
  normalizeIdemAux x h1 h2

/-- Counterexample to claim C9 as written: normalize of nöne is none (the
Turkish fold turns ö into o), and normalizing that again hits the
null-like sentinel check and yields the empty string, so normalize is not
idempotent on all inputs. -/
theorem normalizeNotIdempotent :
    normalizeText "nöne".data = "none".data ∧
      normalizeText (normalizeText "nöne".data) = [] ∧
      normalizeText (normalizeText "nöne".data) ≠ normalizeText "nöne".data := by
  decide

/-- Witness for C9's amended theorem at a concrete input with Turkish
characters and a doubled space, whose normal form is stable. -/
theorem normalizeIdempotentOutsideSentinels_witness :
    normalizeText (normalizeText "Ağaç  Ev".data) =
      normalizeText "Ağaç  Ev".data :=
  normalizeIdempotentOutsideSentinels "Ağaç  Ev".data (by decide) (by decide)

/-- Counterexample to claim C2 as written: for the query nöne, whose
normalized form none matches as a whole word in the product group
None Aksesuar, search does NOT return only the exact-word-tier matches.
create_search_pattern re-normalizes the already-normalized query, the
sentinel none collapses to the empty pattern, the tier-1 regex degenerates
to a bare double word-boundary matching any string with a word character,
and the result also contains Tava, where none occurs as no whole word. -/
theorem searchExactWordWins_cex :
    (∃ r ∈ [recNoneAks, recTava],
      exactPred (normalizeText "nöne".data) r = true) ∧
    searchProducts noFuzzy [recNoneAks, recTava] "nöne".data =
      [recNoneAks, recTava] ∧
    exactTier [recNoneAks, recTava] (normalizeText "nöne".data) =
      [recNoneAks] ∧
    searchProducts noFuzzy [recNoneAks, recTava] "nöne".data ≠
      exactTier [recNoneAks, recTava] (normalizeText "nöne".data) := by
  decide

/-- Claim C2 as amended: for a query whose normalized form is nonempty, is
not one of the null-like sentinel strings nan and none (which the
re-normalization inside create_search_pattern would collapse to a
degenerate empty pattern), and matches as a whole word in at least one
record's normalized product group, search_products returns exactly the
exact-word tier: no lower tier (substring, category, fuzzy, broad)
contributes, by the first-nonempty-tier-wins evaluation order. -/
theorem searchExactWordWins (fz : Str → List Str → List Str) (df : List Rec)
    (q : Str) (hq : normalizeText q ≠ [])
    (hnan : normalizeText q ≠ "nan".data)
    (hnone : normalizeText q ≠ "none".data)
    (hx : ∃ r ∈ df, exactPred (normalizeText q) r = true) :
    searchProducts fz df q = exactTier df (normalizeText q) := by
  have hpat : normalizeText (normalizeText q) = normalizeText q :=
    normalizeIdemAux q hnan hnone
  have hne : exactTier df (normalizeText q) ≠ [] := by
    rcases hx with ⟨r, hr, hpr⟩
    intro hnil
    exact absurd hpr (by simpa using List.filter_eq_nil_iff.mp hnil r hr)
  unfold searchProducts
  rw [if_neg hq, hpat, if_pos hne]

/-- Witness for C2's amended theorem: a concrete record set where the
query telefon matches Akıllı Telefon as a whole word while a category-tier
match (Telefonlar) also exists; search returns exactly the exact-word
tier. -/
theorem searchExactWordWins_witness :
    searchProducts noFuzzy [recAk15, recKablo] "telefon".data =
      exactTier [recAk15, recKablo] (normalizeText "telefon".data) :=
  searchExactWordWins noFuzzy [recAk15, recKablo] "telefon".data
    (by decide) (by decide) (by decide) ⟨recAk15, by decide, by decide⟩
